import Mathlib

/-! Shallow embedding of the `rust-rasterize` repository (a line-segment
rasterizer with analytic filter convolution) and verification of the
frozen claims about it.

Conventions of the embedding:
* Rust `f32` values are modelled as exact rationals (`ℚ`).  All the
  arithmetic appearing in the concrete scenarios below is exact in `f32`
  as well (small dyadic values), so the traces agree with the compiled
  program.  `-0.0` needs no special treatment because every branch of the
  source compares with `<`, `>`, `==`, which identify `-0.0` and `0.0`.
* Rust panics (`expect`, arithmetic underflow, out-of-bounds indexing)
  are modelled by `Option`, with `none` denoting the aborted computation.
* The rayon parallel fold of the pipeline is embedded as the equivalent
  sequential fold: every task only adds values into its own row of the
  buffer under a per-row lock, so the parallel execution denotes the same
  buffer as the sequential one (the spec itself asserts determinism).
-/

namespace Rasterize

/-- `geometry.rs`: `Point` (f32 coordinates modelled as `ℚ`). -/
structure Point where
  x : ℚ
  y : ℚ
  deriving DecidableEq, Repr

/-- `geometry.rs`: `Vec2d`. -/
structure Vec2d where
  x : ℚ
  y : ℚ
  deriving DecidableEq, Repr

instance : Neg Vec2d := ⟨fun v => ⟨-v.x, -v.y⟩⟩

/-- `impl Mul<f32> for Vec2d`. -/
instance : HMul Vec2d ℚ Vec2d := ⟨fun v c => ⟨v.x * c, v.y * c⟩⟩

/-- `impl Add<Vec2d> for Point`. -/
instance : HAdd Point Vec2d Point := ⟨fun p v => ⟨p.x + v.x, p.y + v.y⟩⟩

/-- `impl Sub<Point> for Point` (result is a displacement). -/
instance : HSub Point Point Vec2d := ⟨fun p q => ⟨p.x - q.x, p.y - q.y⟩⟩

/-- `Point::vec_from_origin`. -/
def Point.vec_from_origin (p : Point) : Vec2d := p - (⟨0, 0⟩ : Point)

/-- `Point::offset`. -/
def Point.offsetBy (p : Point) (dx dy : ℚ) : Point := p + (⟨dx, dy⟩ : Vec2d)

/-- `geometry.rs`: `Line` — a directed segment. -/
structure Line where
  start : Point
  stop : Point
  deriving DecidableEq, Repr

/-- `geometry.rs`: `Size` (may be negative). -/
structure Size where
  width : ℚ
  height : ℚ
  deriving DecidableEq, Repr

/-- `geometry.rs`: `Rect`. -/
structure Rect where
  origin : Point
  size : Size
  deriving DecidableEq, Repr

/-- `Rect::normalize`: rewrite to non-negative size, origin at top-left.
The source mutates width then height in sequence. -/
def Rect.normalize (r : Rect) : Rect :=
  let r1 : Rect :=
    if r.size.width < 0 then
      ⟨⟨r.origin.x + r.size.width, r.origin.y⟩, ⟨-r.size.width, r.size.height⟩⟩
    else r
  if r1.size.height < 0 then
    ⟨⟨r1.origin.x, r1.origin.y + r1.size.height⟩, ⟨r1.size.width, -r1.size.height⟩⟩
  else r1

/-- `Rect::top_left`. -/
def Rect.top_left (r : Rect) : Point := r.normalize.origin

/-- `Rect::top_right`. -/
def Rect.top_right (r : Rect) : Point :=
  (r.normalize.origin).offsetBy r.normalize.size.width 0

/-- `Rect::bottom_left`. -/
def Rect.bottom_left (r : Rect) : Point :=
  (r.normalize.origin).offsetBy 0 r.normalize.size.height

/-- `Rect::is_inside`: closed-rectangle membership after normalization. -/
def Rect.is_inside (r : Rect) (p : Point) : Bool :=
  let rect := r.normalize
  decide (rect.top_left.x ≤ p.x ∧ p.x ≤ rect.top_right.x ∧
          rect.top_left.y ≤ p.y ∧ p.y ≤ rect.bottom_left.y)

/-- Rust `f32 as usize`: truncation toward zero, saturating at `0` for
negative input (the sizes used by the pipeline are non-negative). -/
def ratToUsize (q : ℚ) : ℕ := q.floor.toNat

/-- `impl From<Size> for ImageSize`. -/
def Size.toImage (s : Size) : ℕ × ℕ := (ratToUsize s.width, ratToUsize s.height)

/-! Liang–Barsky clipping (`rasterizer.rs`, `impl Curve for Line`) -/

/-- `Line::bounding_box`: `Rect::new(start.x, start.y, end.x - start.x, end.y - start.y)`. -/
def Line.bounding_box (l : Line) : Rect :=
  ⟨⟨l.start.x, l.start.y⟩, ⟨l.stop.x - l.start.x, l.stop.y - l.start.y⟩⟩

/-- `Line::offset`: pure translation. -/
def Line.offsetBy (l : Line) (v : Vec2d) : Line := ⟨l.start + v, l.stop + v⟩

/-- The four `(p, q)` half-plane constraints of `clip_to_rect`, in the
order the source loop produces them. -/
def pqList (l : Line) (r : Rect) : List (ℚ × ℚ) :=
  let dx := l.stop.x - l.start.x
  let dy := l.stop.y - l.start.y
  [(-dx, l.start.x - r.origin.x),
   (dx, r.origin.x + r.size.width - l.start.x),
   (-dy, l.start.y - r.origin.y),
   (dy, r.origin.y + r.size.height - l.start.y)]

/-- The early return of the clipping loop: a constraint with `p == 0 && q < 0`
(line parallel to an edge, start already outside) aborts the whole clip. -/
def earlyReject : List (ℚ × ℚ) → Bool
  | [] => false
  | (p, q) :: rest =>
    if p < 0 then earlyReject rest
    else if p > 0 then earlyReject rest
    else if p = 0 ∧ q < 0 then true
    else earlyReject rest

/-- The values pushed into the `lt_zero` ArrayVec (entry candidates `q/p`
for constraints with `p < 0`), truncated at the early return. -/
def ltPushes : List (ℚ × ℚ) → List ℚ
  | [] => []
  | (p, q) :: rest =>
    if p < 0 then q / p :: ltPushes rest
    else if p > 0 then ltPushes rest
    else if p = 0 ∧ q < 0 then []
    else ltPushes rest

/-- The values pushed into the `gt_zero` ArrayVec (exit candidates `q/p`
for constraints with `p > 0`), truncated at the early return. -/
def gtPushes : List (ℚ × ℚ) → List ℚ
  | [] => []
  | (p, q) :: rest =>
    if p < 0 then gtPushes rest
    else if p > 0 then q / p :: gtPushes rest
    else if p = 0 ∧ q < 0 then []
    else gtPushes rest

/-- The denominators of the divisions `q / p` that the clipping loop
actually executes, in execution order (truncated at the early return).
A division is executed only on the `p < 0` and `p > 0` branches. -/
def divisorsPQ : List (ℚ × ℚ) → List ℚ
  | [] => []
  | (p, q) :: rest =>
    if p < 0 then p :: divisorsPQ rest
    else if p > 0 then p :: divisorsPQ rest
    else if p = 0 ∧ q < 0 then []
    else divisorsPQ rest

/-- All denominators used by `clip_to_rect` on the given input. -/
def clipDivisors (l : Line) (r : Rect) : List ℚ := divisorsPQ (pqList l r)

/-- `t1`: the source pushes the sentinel `0.0` into `lt_zero` and takes the
maximum of the (non-empty) vector; since `max` is associative, commutative
and idempotent this equals a fold of `max` with initial value `0`. -/
def entryParam (lt : List ℚ) : ℚ := lt.foldl max 0

/-- `t2`: dually, the minimum of `gt_zero` with the sentinel `1.0`. -/
def exitParam (gt : List ℚ) : ℚ := gt.foldl min 1

/-- The point `start + (end - start) * t` of a line's parametrization. -/
def linePoint (l : Line) (t : ℚ) : Point := l.start + (l.stop - l.start) * t

/-- `Line::clip_to_rect` (`rasterizer.rs` lines 31–89): Liang–Barsky
clipping with the final degenerate-boundary guard, which compares both
endpoint coordinates against the literal constant `1.0`. -/
def Line.clip_to_rect (l : Line) (r : Rect) : Option Line :=
  let pqs := pqList l r
  if earlyReject pqs then none
  else
    let t1 := entryParam (ltPushes pqs)
    let t2 := exitParam (gtPushes pqs)
    if t1 > t2 then none
    else
      let res : Line := ⟨linePoint l t1, linePoint l t2⟩
      if (res.start.x = 1 ∧ res.stop.x = 1) ∨ (res.start.y = 1 ∧ res.stop.y = 1) then none
      else some res

/-! Filters (`filter/mod.rs`, `filter/box_filter.rs`, `filter/dynamic_filter.rs`) -/

/-- The two capabilities (`Filter` + `Evaluate<Line>`) of a filter,
bundled as data.  `eval` returns `none` where the Rust implementation
panics (missing tile data, out-of-range lookup, u8 underflow). -/
structure FilterImpl where
  support : (ℚ × ℚ) × (ℚ × ℚ)
  eval : Line → ℕ × ℕ → Option (ℚ × ℚ)

/-- `box_filter.rs`: `BoxFilter { support, area }`. -/
structure BoxFilter where
  support : (ℚ × ℚ) × (ℚ × ℚ)
  area : ℚ
  deriving DecidableEq, Repr

/-- `BoxFilter::new(x, y)`. -/
def BoxFilter.new (x y : ℚ) : BoxFilter :=
  ⟨((-x / 2, x / 2), (-y / 2, y / 2)), x * y⟩

/-- `impl Evaluate<Line> for BoxFilter`: trapezoid rule, normalized by the
kernel area (the filter-piece argument is ignored).  Rational division is
total (`q / 0 = 0`) while the f32 source produces `NaN` when `area = 0`,
so theorems about degenerate results restrict to filters with nonzero
area. -/
def BoxFilter.eval (b : BoxFilter) (line : Line) (_piece : ℕ × ℕ) : ℚ × ℚ :=
  let accumulator := line.stop.y - line.start.y
  let pixel_value := 1/2 * accumulator * (line.stop.x + line.start.x)
  (pixel_value / b.area, accumulator / b.area)

/-- A `BoxFilter` as a pipeline filter (its `eval` never panics). -/
def BoxFilter.impl (b : BoxFilter) : FilterImpl :=
  ⟨b.support, fun l p => some (b.eval l p)⟩

/-- `dynamic_filter.rs`: `ParametricLine` — the four scalar channels
`(origin_x, origin_y, vector_x, vector_y)` derived from a line. -/
structure PLine where
  ox : ℚ
  oy : ℚ
  vx : ℚ
  vy : ℚ
  deriving DecidableEq, Repr

/-- `PowerLookup::identity` for `ParametricLine`: `(1, 1, 1, 1)`. -/
def PLine.identity : PLine := ⟨1, 1, 1, 1⟩

/-- `MulAssign<ParametricLine>`: elementwise multiplication. -/
def PLine.mul (a b : PLine) : PLine := ⟨a.ox * b.ox, a.oy * b.oy, a.vx * b.vx, a.vy * b.vy⟩

/-- Mathematical elementwise `i`-th power of the channels (specification
side, used to state what the lookup table must contain). -/
def PLine.elemPow (v : PLine) : ℕ → PLine
  | 0 => PLine.identity
  | n + 1 => (v.elemPow n).mul v

/-- The `accumulator *= values; table.push(accumulator)` loop body of
`PowersLookupTable::new`, run `n` times starting from `acc`. -/
def powAux (v : PLine) : PLine → ℕ → List PLine
  | _, 0 => []
  | acc, n + 1 =>
    let acc2 := acc.mul v
    acc2 :: powAux v acc2 n

/-- `PowersLookupTable::new(values, up_to_power)` (`dynamic_filter.rs`
lines 156–166).  The loop bound `0..up_to_power - 1` is a `u8`
subtraction: for `up_to_power = 0` it underflows (panic in debug builds,
a 255-iteration wrap in release builds); the underflow is modelled as
failure (`none`).  Otherwise the table is
`[identity, values, values², …, values^up_to_power]`. -/
def PowersLookupTable.new (values : PLine) (up_to_power : ℕ) : Option (List PLine) :=
  if up_to_power = 0 then none
  else some (PLine.identity :: values :: powAux values values (up_to_power - 1))

/-- One monomial of a tile: `coefficient * origin_x^{e.1} * origin_y^{e.2.1}
* vector_x^{e.2.2.1} * vector_y^{e.2.2.2}`, with the four factors gathered
from the powers table (`power_lookup_4x` channel rows 0–3).  An index
beyond the table is an out-of-bounds panic, modelled as `none`. -/
def monomialValue (tbl : List PLine) (c : ℚ) (e : ℕ × ℕ × ℕ × ℕ) : Option ℚ := do
  let a ← tbl.get? e.1
  let b ← tbl.get? e.2.1
  let d ← tbl.get? e.2.2.1
  let f ← tbl.get? e.2.2.2
  pure (c * a.ox * b.oy * d.vx * f.vy)

/-- `dynamic_filter.rs`: `Tile` — one multinomial per filter piece. -/
structure Tile where
  coefficients : List ℚ
  powers : List (ℕ × ℕ × ℕ × ℕ)
  max_pow : ℕ
  deriving DecidableEq, Repr

/-- One 4-lane batch of `Tile::evaluate`: gather the four monomials from
the table (any out-of-range exponent is an indexing panic, `none`),
multiply lanewise by the coefficient vector and sum the lanes.  Rational
addition is associative and commutative, so the lanewise association of
the SIMD `fold` needs no separate modelling. -/
def monomial4 (tbl : List PLine) (c1 c2 c3 c4 : ℚ) (p1 p2 p3 p4 : ℕ × ℕ × ℕ × ℕ) :
    Option ℚ := do
  let m1 ← monomialValue tbl c1 p1
  let m2 ← monomialValue tbl c2 p2
  let m3 ← monomialValue tbl c3 p3
  let m4 ← monomialValue tbl c4 p4
  pure (m1 + m2 + m3 + m4)

/-- The chunk loop of `Tile::evaluate` (`dynamic_filter.rs` lines
115–140): `coefficients.chunks(4).zip(powers.chunks(4))`, so iteration
stops as soon as either list runs out of chunks.  A full coefficient
chunk indexes `powers_mat[0..3]` directly — a shorter powers chunk is an
out-of-bounds panic (`none`).  A short (final) coefficient chunk pads the
missing lanes with the defaults `0.0` and `[0,0,0,0]`; in particular an
unmatched trailing coefficient is paired with exponent `(0,0,0,0)` and
contributes itself times the identity row `table[0]`. -/
def evalChunks (tbl : List PLine) : List ℚ → List (ℕ × ℕ × ℕ × ℕ) → Option ℚ
  | [], _ => some 0
  | c1 :: c2 :: c3 :: c4 :: crest, ps =>
    match ps with
    | p1 :: p2 :: p3 :: p4 :: prest => do
      let v ← monomial4 tbl c1 c2 c3 c4 p1 p2 p3 p4
      let rest ← evalChunks tbl crest prest
      pure (v + rest)
    | [] => some 0
    | _ => none
  | cs, ps =>
    match ps with
    | [] => some 0
    | _ =>
      monomial4 tbl (cs.getD 0 0) (cs.getD 1 0) (cs.getD 2 0) (cs.getD 3 0)
        (ps.getD 0 (0, 0, 0, 0)) (ps.getD 1 (0, 0, 0, 0)) (ps.getD 2 (0, 0, 0, 0))
        (ps.getD 3 (0, 0, 0, 0))

/-- `Tile::evaluate`: the batched monomial sum over the coefficient and
power lists, as computed by the chunk loop above. -/
def Tile.evaluate (t : Tile) (tbl : List PLine) : Option ℚ :=
  evalChunks tbl t.coefficients t.powers

/-- `dynamic_filter.rs`: `TileSet` — `tiles[row][col]`. -/
def TileSet := List (List Tile)

/-- `TileSet::evaluate_tile`: select `self.0[piece.1][piece.0]` (an
out-of-range piece is an indexing panic, modelled `none`), build the
powers table for the tile's `max_pow`, and evaluate. -/
def TileSet.evaluate_tile (ts : TileSet) (piece : ℕ × ℕ) (values : PLine) : Option ℚ := do
  let row ← List.get? ts piece.2
  let tile ← List.get? row piece.1
  let tbl ← PowersLookupTable.new values tile.max_pow
  tile.evaluate tbl

/-- `dynamic_filter.rs`: `DynamicFilter`. -/
structure DynamicFilter where
  name : String
  support : (ℚ × ℚ) × (ℚ × ℚ)
  normalization : ℚ
  line_tiles : Option TileSet

/-- `impl Evaluate<Line> for DynamicFilter` (lines 181–199): the
`expect("This filter cannot rasterize Lines.")` panic on absent
`line_tiles` is modelled as `none`; the accumulator is the same tile
evaluated at the synthetic channels `(1, origin_y, 0, vector_y)`; both
results are scaled by `normalization`. -/
def DynamicFilter.eval (flt : DynamicFilter) (line : Line) (piece : ℕ × ℕ) :
    Option (ℚ × ℚ) := do
  let ts ← flt.line_tiles
  let par_line : PLine :=
    ⟨line.start.x, line.start.y, line.stop.x - line.start.x, line.stop.y - line.start.y⟩
  let pixel_value ← ts.evaluate_tile piece par_line
  let accumulator ← ts.evaluate_tile piece ⟨1, par_line.oy, 0, par_line.vy⟩
  pure (pixel_value * flt.normalization, accumulator * flt.normalization)

/-- A `DynamicFilter` as a pipeline filter. -/
def DynamicFilter.impl (f : DynamicFilter) : FilterImpl :=
  ⟨f.support, f.eval⟩

/-! Rasterization pipeline (`rasterizer.rs`, lines 108–232) -/

/-- The constant `PIXEL_RECT`: the canonical unit pixel cell. -/
def pixelRect : Rect := ⟨⟨0, 0⟩, ⟨1, 1⟩⟩

/-- `cut_curves`: one cell per pixel of the (expanded) viewport, row-major;
each cell holds the non-empty clipped fragments of all curves translated
into the cell's local frame.  `flat_map` over the 0/1-element clip
iterator is `filterMap`.  The rayon `par_iter` map is order-preserving. -/
def cut_curves (viewport : Rect) (curves : List Line) : List (List Line) :=
  let size := viewport.size.toImage
  (List.range (size.1 * size.2)).map fun index =>
    let row := index / size.1
    let col := index % size.1
    let pixel_origin := viewport.origin + (⟨(col : ℚ), (row : ℚ)⟩ : Vec2d)
    curves.filterMap fun curve =>
      (curve.offsetBy (-pixel_origin.vec_from_origin)).clip_to_rect pixelRect

/-- The inner fragment loop of one column (`rasterizer.rs` lines 220–227):
`pixel_value` starts from the *current* running accumulator, then every
fragment's evaluation adds its first component to `pixel_value` and its
second to the accumulator.  Returns `(written value, new accumulator)`;
`none` if an evaluation panics. -/
def columnStep (evalFn : Line → Option (ℚ × ℚ)) (frags : List Line) (acc : ℚ) :
    Option (ℚ × ℚ) :=
  frags.foldlM
    (fun pv_acc l => do
      let e ← evalFn l
      pure (pv_acc.1 + e.1, pv_acc.2 + e.2))
    (acc, acc)

/-- The right-to-left column sweep of one `(filter_piece, scanline)` task:
processes the given column list in order, threading the running
accumulator (initialized by the caller to `0`), and returns the
`(column, amount added to the buffer)` pairs. -/
def sweepCols (evalFn : Line → Option (ℚ × ℚ)) (cellAt : ℕ → List Line) :
    List ℕ → ℚ → Option (List (ℕ × ℚ))
  | [], _ => pure []
  | c :: rest, acc => do
    let wa ← columnStep evalFn (cellAt c) acc
    let tail ← sweepCols evalFn cellAt rest wa.2
    pure ((c, wa.1) :: tail)

/-- `chunk[column] += pixel_value` on a buffer modelled as `ℕ → ℚ`. -/
def bufferAdd (buf : ℕ → ℚ) (i : ℕ) (v : ℚ) : ℕ → ℚ :=
  fun j => if j = i then buf j + v else buf j

/-- One `(filter_piece, scanline)` task of the accumulate stage
(`rasterizer.rs` lines 210–231): sweep the columns `size.width-1 … 0`,
looking up the cut-table cell offset by the filter piece, and add each
written value into the task's row of the buffer. -/
def taskRun (evalFn : Line → ℕ × ℕ → Option (ℚ × ℚ)) (cells : List (List Line))
    (w cw : ℕ) (fp : ℕ × ℕ) (sl : ℕ) (buf : ℕ → ℚ) : Option (ℕ → ℚ) := do
  let cellAt : ℕ → List Line := fun column =>
    cells.getD ((sl + fp.2) * cw + (column + fp.1)) []
  let writes ← sweepCols (fun l => evalFn l fp) cellAt (List.range w).reverse 0
  pure (writes.foldl (fun b cv => bufferAdd b (sl * w + cv.1) cv.2) buf)

/-- `rasterize_parallel` after the viewport has been normalized
(`rasterizer.rs` lines 153–232).  The buffer starts zero-filled; the
filter-piece × scanline fan-out is folded sequentially (every task only
adds into its locked row, so this denotes the rayon execution); a panic
in any task aborts the whole call (`none`). -/
def rasterizeNormalized (viewport : Rect) (flt : FilterImpl) (curves : List Line) :
    Option (List ℚ) := do
  let size := viewport.size.toImage
  let w := size.1
  let h := size.2
  let support := flt.support
  let x_filt_pieces := ratToUsize (support.1.2 - support.1.1)
  let y_filt_pieces := ratToUsize (support.2.2 - support.2.1)
  let curves_viewport : Rect :=
    ⟨viewport.origin + (⟨support.1.1 + 1/2, support.2.1 + 1/2⟩ : Vec2d),
     ⟨viewport.size.width + (x_filt_pieces : ℚ) - 1,
      viewport.size.height + (y_filt_pieces : ℚ) - 1⟩⟩
  let cells := cut_curves curves_viewport curves
  let cw := w + x_filt_pieces - 1
  let pieces := (List.range (x_filt_pieces * y_filt_pieces)).map fun filter_index =>
    (filter_index / y_filt_pieces, filter_index % y_filt_pieces)
  let tasks := pieces.flatMap fun fp => (List.range h).map fun sl => (fp, sl)
  let final ← tasks.foldlM
    (fun buf t => taskRun flt.eval cells w cw t.1 t.2 buf)
    (fun _ => (0 : ℚ))
  pure ((List.range (w * h)).map final)

/-- `rasterize_parallel` (`rasterizer.rs` line 147): the first statement
normalizes the viewport, then the rest of the pipeline runs on the
normalized rect. -/
def rasterize_parallel (viewport : Rect) (flt : FilterImpl) (curves : List Line) :
    Option (List ℚ) :=
  rasterizeNormalized viewport.normalize flt curves

/-! Specification-side column sums -/

/-- Sum of the `pixel_value` components of a column's fragments under a
(total) evaluation function. -/
def pvTot (g : Line → ℚ × ℚ) (frags : List Line) : ℚ := (frags.map fun l => (g l).1).sum

/-- Sum of the `accumulator` components of a column's fragments. -/
def accTot (g : Line → ℚ × ℚ) (frags : List Line) : ℚ := (frags.map fun l => (g l).2).sum

/-! Helper lemmas -/

@[simp] theorem point_eq_iff (p q : Point) : p = q ↔ p.x = q.x ∧ p.y = q.y := by
  cases p; cases q; simp

@[simp] theorem vec2d_eq_iff (v w : Vec2d) : v = w ↔ v.x = w.x ∧ v.y = w.y := by
  cases v; cases w; simp

@[simp] theorem Vec2d.neg_x (v : Vec2d) : (-v).x = -v.x := rfl

@[simp] theorem Vec2d.neg_y (v : Vec2d) : (-v).y = -v.y := rfl

@[simp] theorem Vec2d.smul_x (v : Vec2d) (c : ℚ) : (v * c).x = v.x * c := rfl

@[simp] theorem Vec2d.smul_y (v : Vec2d) (c : ℚ) : (v * c).y = v.y * c := rfl

@[simp] theorem Point.add_vec_x (p : Point) (v : Vec2d) : (p + v).x = p.x + v.x := rfl

@[simp] theorem Point.add_vec_y (p : Point) (v : Vec2d) : (p + v).y = p.y + v.y := rfl

@[simp] theorem Point.sub_x (p q : Point) : (p - q).x = p.x - q.x := rfl

@[simp] theorem Point.sub_y (p q : Point) : (p - q).y = p.y - q.y := rfl

@[simp] theorem Point.vec_from_origin_x (p : Point) : p.vec_from_origin.x = p.x - 0 := rfl

@[simp] theorem Point.vec_from_origin_y (p : Point) : p.vec_from_origin.y = p.y - 0 := rfl

@[simp] theorem ratToUsize_natCast (n : ℕ) : ratToUsize (n : ℚ) = n := by
  simp [ratToUsize, Rat.floor_def']

@[simp] theorem ratToUsize_zero : ratToUsize 0 = 0 := by
  simpa using ratToUsize_natCast 0

@[simp] theorem ratToUsize_one : ratToUsize 1 = 1 := by
  simpa using ratToUsize_natCast 1

@[simp] theorem ratToUsize_two : ratToUsize 2 = 2 := by
  simpa using ratToUsize_natCast 2

/-- Normalizing a rect is idempotent. -/
theorem Rect.normalize_idem (r : Rect) : r.normalize.normalize = r.normalize := by
  by_cases hw : r.size.width < 0
  · by_cases hh : r.size.height < 0
    · simp [Rect.normalize, hw, hh, not_lt.mpr (neg_nonneg.mpr hw.le),
        not_lt.mpr (neg_nonneg.mpr hh.le)]
    · simp [Rect.normalize, hw, hh, not_lt.mpr (neg_nonneg.mpr hw.le)]
  · by_cases hh : r.size.height < 0
    · simp [Rect.normalize, hw, hh, not_lt.mpr (neg_nonneg.mpr hh.le)]
    · simp [Rect.normalize, hw, hh]

/-- No constraint with `p = 0` contributes a divisor, so every recorded
divisor comes from a branch that established its sign. -/
theorem divisorsPQ_ne_zero : ∀ pqs : List (ℚ × ℚ), (0 : ℚ) ∉ divisorsPQ pqs := by
  intro pqs
  induction pqs with
  | nil => simp [divisorsPQ]
  | cons hd tl ih =>
    obtain ⟨p, q⟩ := hd
    simp only [divisorsPQ]
    split_ifs with h1 h2 h3
    · intro hmem
      rcases List.mem_cons.mp hmem with rfl | h
      · exact lt_irrefl 0 h1
      · exact ih h
    · intro hmem
      rcases List.mem_cons.mp hmem with rfl | h
      · exact lt_irrefl 0 h2
      · exact ih h
    · simp
    · exact ih

/-- The `lt_zero` pushes are bounded by the number of constraints whose
`p` is negative. -/
theorem ltPushes_len_le : ∀ pqs : List (ℚ × ℚ),
    (ltPushes pqs).length ≤ (pqs.filter fun pq => decide (pq.1 < 0)).length := by
  intro pqs
  induction pqs with
  | nil => simp [ltPushes]
  | cons hd tl ih =>
    obtain ⟨p, q⟩ := hd
    simp only [ltPushes, List.filter_cons]
    split_ifs with hc1 hc2 hc3 hc4 hc5 <;>
      simp_all [decide_eq_true_eq] <;> omega

/-- The `gt_zero` pushes are bounded by the number of constraints whose
`p` is positive. -/
theorem gtPushes_len_le : ∀ pqs : List (ℚ × ℚ),
    (gtPushes pqs).length ≤ (pqs.filter fun pq => decide (0 < pq.1)).length := by
  intro pqs
  induction pqs with
  | nil => simp [gtPushes]
  | cons hd tl ih =>
    obtain ⟨p, q⟩ := hd
    simp only [gtPushes, List.filter_cons]
    split_ifs with hc1 hc2 hc3 hc4 hc5 <;>
      simp_all [decide_eq_true_eq] <;> omega

/-- The constraint pairs `(-dx, dx)` and `(-dy, dy)` each contribute at
most one negative `p`. -/
theorem filter_neg_pq_len (l : Line) (r : Rect) :
    ((pqList l r).filter fun pq => decide (pq.1 < 0)).length ≤ 2 := by
  simp only [pqList, List.filter_cons, List.filter_nil]
  rcases lt_trichotomy (l.stop.x - l.start.x) 0 with hx | hx | hx <;>
    rcases lt_trichotomy (l.stop.y - l.start.y) 0 with hy | hy | hy <;>
      split_ifs <;> simp_all [decide_eq_true_eq] <;> first | omega | linarith

/-- The constraint pairs `(-dx, dx)` and `(-dy, dy)` each contribute at
most one positive `p`. -/
theorem filter_pos_pq_len (l : Line) (r : Rect) :
    ((pqList l r).filter fun pq => decide (0 < pq.1)).length ≤ 2 := by
  simp only [pqList, List.filter_cons, List.filter_nil]
  rcases lt_trichotomy (l.stop.x - l.start.x) 0 with hx | hx | hx <;>
    rcases lt_trichotomy (l.stop.y - l.start.y) 0 with hy | hy | hy <;>
      split_ifs <;> simp_all [decide_eq_true_eq] <;> first | omega | linarith


/-- `PowerLookup::identity` is a left unit for the elementwise product. -/
theorem PLine.identity_mul (v : PLine) : PLine.identity.mul v = v := by
  cases v
  simp [PLine.mul, PLine.identity]

/-- The first elementwise power is the channel tuple itself. -/
theorem PLine.elemPow_one (v : PLine) : v.elemPow 1 = v := by
  show (PLine.elemPow v 0).mul v = v
  simp [PLine.elemPow, PLine.identity_mul]

/-- Entry `i` of the push loop started from `v^k` is `v^(k+i+1)`. -/
theorem powAux_get (v : PLine) :
    ∀ (n : ℕ) (acc : PLine) (k : ℕ), acc = v.elemPow k → ∀ i : ℕ,
      (powAux v acc n).get? i = if i < n then some (v.elemPow (k + i + 1)) else none := by
  intro n
  induction n with
  | zero => intro acc k hk i; simp [powAux]
  | succ m ih =>
    intro acc k hk i
    have hstep : acc.mul v = v.elemPow (k + 1) := by rw [hk]; rfl
    cases i with
    | zero => simp [powAux, hstep]
    | succ j =>
      simp only [powAux, List.get?_cons_succ]
      rw [ih (acc.mul v) (k + 1) hstep j]
      have harith : k + 1 + j + 1 = k + (j + 1) + 1 := by omega
      rcases Nat.lt_or_ge j m with hjm | hjm
      · rw [if_pos hjm, if_pos (by omega), harith]
      · rw [if_neg (by omega), if_neg (by omega)]

/-- Core content of the powers table: for `1 ≤ m` construction succeeds
and entry `i ≤ m` is the elementwise `i`-th power. -/
theorem powersTable_spec (v : PLine) (m : ℕ) (hm : 1 ≤ m) :
    PowersLookupTable.new v m = some (PLine.identity :: v :: powAux v v (m - 1)) ∧
      ∀ i : ℕ, i ≤ m →
        (PLine.identity :: v :: powAux v v (m - 1)).get? i = some (v.elemPow i) := by
  constructor
  · simp [PowersLookupTable.new]
    omega
  · intro i hi
    match i with
    | 0 => simp [PLine.elemPow]
    | 1 => simp [PLine.elemPow_one]
    | (j+2) =>
      show (powAux v v (m-1)).get? j = some (v.elemPow (j+2))
      rw [powAux_get v (m-1) v 1 (PLine.elemPow_one v).symm j]
      rw [if_pos (by omega)]
      congr 2
      omega

/-- The `vector_x` channel of `v^i` is `v.vx ^ i`. -/
theorem PLine.elemPow_vx (v : PLine) : ∀ i : ℕ, (v.elemPow i).vx = v.vx ^ i := by
  intro i
  induction i with
  | zero => simp [PLine.elemPow, PLine.identity]
  | succ n ih => simp [PLine.elemPow, PLine.mul, ih, pow_succ]

/-- The `vector_y` channel of `v^i` is `v.vy ^ i`. -/
theorem PLine.elemPow_vy (v : PLine) : ∀ i : ℕ, (v.elemPow i).vy = v.vy ^ i := by
  intro i
  induction i with
  | zero => simp [PLine.elemPow, PLine.identity]
  | succ n ih => simp [PLine.elemPow, PLine.mul, ih, pow_succ]

/-- A monomial with a positive vector exponent vanishes when the vector
channels are zero. -/
theorem monomialValue_zero (tbl : List PLine) (values : PLine) (m : ℕ)
    (htbl : ∀ i : ℕ, i ≤ m → tbl.get? i = some (values.elemPow i))
    (hvx : values.vx = 0) (hvy : values.vy = 0)
    (c : ℚ) (e : ℕ × ℕ × ℕ × ℕ)
    (hb : e.1 ≤ m ∧ e.2.1 ≤ m ∧ e.2.2.1 ≤ m ∧ e.2.2.2 ≤ m)
    (hv : 1 ≤ e.2.2.1 ∨ 1 ≤ e.2.2.2) :
    monomialValue tbl c e = some 0 := by
  obtain ⟨h1, h2, h3, h4⟩ := hb
  simp only [monomialValue, htbl _ h1, htbl _ h2, htbl _ h3, htbl _ h4,
    Option.bind_eq_bind, Option.some_bind]
  rcases hv with hv | hv
  · simp [PLine.elemPow_vx, hvx, zero_pow (by omega : e.2.2.1 ≠ 0)]
  · simp [PLine.elemPow_vy, hvy, zero_pow (by omega : e.2.2.2 ≠ 0)]

/-- The chunk loop of a tile whose coefficient and power lists have the
same length, and whose monomials all carry a positive vector exponent,
evaluates to zero on zero vector channels: padded lanes contribute `0`
and real lanes vanish. -/
theorem evalChunks_zero (tbl : List PLine) (values : PLine) (m : ℕ)
    (htbl : ∀ i : ℕ, i ≤ m → tbl.get? i = some (values.elemPow i))
    (hvx : values.vx = 0) (hvy : values.vy = 0) :
    ∀ (cs : List ℚ) (ps : List (ℕ × ℕ × ℕ × ℕ)),
      cs.length = ps.length →
      (∀ e ∈ ps, (e.1 ≤ m ∧ e.2.1 ≤ m ∧ e.2.2.1 ≤ m ∧ e.2.2.2 ≤ m) ∧
        (1 ≤ e.2.2.1 ∨ 1 ≤ e.2.2.2)) →
      evalChunks tbl cs ps = some 0 := by
  have h0 : tbl[0]? = some (values.elemPow 0) := by
    rw [← List.get?_eq_getElem?]
    exact htbl 0 (Nat.zero_le m)
  have main : ∀ (n : ℕ) (cs : List ℚ) (ps : List (ℕ × ℕ × ℕ × ℕ)),
      cs.length ≤ n → cs.length = ps.length →
      (∀ e ∈ ps, (e.1 ≤ m ∧ e.2.1 ≤ m ∧ e.2.2.1 ≤ m ∧ e.2.2.2 ≤ m) ∧
        (1 ≤ e.2.2.1 ∨ 1 ≤ e.2.2.2)) →
      evalChunks tbl cs ps = some 0 := by
    intro n
    induction n with
    | zero =>
      intro cs ps hn hlen hp
      have hcs : cs = [] := List.length_eq_zero.mp (Nat.le_zero.mp hn)
      subst hcs
      rfl
    | succ k ih =>
      intro cs ps hn hlen hp
      rcases cs with _ | ⟨c1, cs1⟩
      · rfl
      rcases ps with _ | ⟨p1, ps1⟩
      · simp at hlen
      have hz1 : monomialValue tbl c1 p1 = some 0 :=
        monomialValue_zero tbl values m htbl hvx hvy c1 p1 (hp p1 (by simp)).1
          (hp p1 (by simp)).2
      rcases cs1 with _ | ⟨c2, cs2⟩
      · have hps1 : ps1 = [] := by
          simp only [List.length_cons, List.length_nil] at hlen
          exact List.length_eq_zero.mp (by omega)
        subst hps1
        simp [evalChunks, monomial4, hz1]
        simp [monomialValue, h0, Prod.fst_zero, Prod.snd_zero]
      rcases ps1 with _ | ⟨p2, ps2⟩
      · simp at hlen
      have hz2 : monomialValue tbl c2 p2 = some 0 :=
        monomialValue_zero tbl values m htbl hvx hvy c2 p2 (hp p2 (by simp)).1
          (hp p2 (by simp)).2
      rcases cs2 with _ | ⟨c3, cs3⟩
      · have hps2 : ps2 = [] := by
          simp only [List.length_cons, List.length_nil] at hlen
          exact List.length_eq_zero.mp (by omega)
        subst hps2
        simp [evalChunks, monomial4, hz1, hz2]
        simp [monomialValue, h0, Prod.fst_zero, Prod.snd_zero]
      rcases ps2 with _ | ⟨p3, ps3⟩
      · simp at hlen
      have hz3 : monomialValue tbl c3 p3 = some 0 :=
        monomialValue_zero tbl values m htbl hvx hvy c3 p3 (hp p3 (by simp)).1
          (hp p3 (by simp)).2
      rcases cs3 with _ | ⟨c4, cs4⟩
      · have hps3 : ps3 = [] := by
          simp only [List.length_cons, List.length_nil] at hlen
          exact List.length_eq_zero.mp (by omega)
        subst hps3
        simp [evalChunks, monomial4, hz1, hz2, hz3]
        simp [monomialValue, h0, Prod.fst_zero, Prod.snd_zero]
      rcases ps3 with _ | ⟨p4, ps4⟩
      · simp at hlen
      have hz4 : monomialValue tbl c4 p4 = some 0 :=
        monomialValue_zero tbl values m htbl hvx hvy c4 p4 (hp p4 (by simp)).1
          (hp p4 (by simp)).2
      have hrest : evalChunks tbl cs4 ps4 = some 0 := by
        apply ih cs4 ps4
        · simp only [List.length_cons] at hn
          omega
        · simp only [List.length_cons] at hlen
          omega
        · exact fun e he => hp e (by simp [he])
      simp [evalChunks, monomial4, hz1, hz2, hz3, hz4, hrest]
  exact fun cs ps hlen hp => main cs.length cs ps le_rfl hlen hp

/-- A well-formed tile (equal-length coefficient and power lists) whose
monomials all carry a positive vector exponent evaluates to zero on zero
vector channels. -/
theorem Tile.evaluate_zero (t : Tile) (tbl : List PLine) (values : PLine)
    (htbl : ∀ i : ℕ, i ≤ t.max_pow → tbl.get? i = some (values.elemPow i))
    (hvx : values.vx = 0) (hvy : values.vy = 0)
    (hlen : t.coefficients.length = t.powers.length)
    (hp : ∀ e ∈ t.powers,
      (e.1 ≤ t.max_pow ∧ e.2.1 ≤ t.max_pow ∧ e.2.2.1 ≤ t.max_pow ∧
        e.2.2.2 ≤ t.max_pow) ∧ (1 ≤ e.2.2.1 ∨ 1 ≤ e.2.2.2)) :
    t.evaluate tbl = some 0 :=
  evalChunks_zero tbl values t.max_pow htbl hvx hvy t.coefficients t.powers hlen hp

/-- Tile selection plus evaluation on zero vector channels gives zero. -/
theorem evaluate_tile_zero (ts : TileSet) (piece : ℕ × ℕ) (values : PLine)
    (row : List Tile) (tile : Tile)
    (hrow : List.get? ts piece.2 = some row)
    (htile : List.get? row piece.1 = some tile)
    (hm : 1 ≤ tile.max_pow)
    (hvx : values.vx = 0) (hvy : values.vy = 0)
    (hlen : tile.coefficients.length = tile.powers.length)
    (hp : ∀ e ∈ tile.powers,
      (e.1 ≤ tile.max_pow ∧ e.2.1 ≤ tile.max_pow ∧ e.2.2.1 ≤ tile.max_pow ∧
        e.2.2.2 ≤ tile.max_pow) ∧ (1 ≤ e.2.2.1 ∨ 1 ≤ e.2.2.2)) :
    ts.evaluate_tile piece values = some 0 := by
  obtain ⟨hnew, htbl⟩ := powersTable_spec values tile.max_pow hm
  simp only [TileSet.evaluate_tile, hrow, htile, hnew, Option.bind_eq_bind, Option.some_bind]
  exact Tile.evaluate_zero tile _ values htbl hvx hvy hlen hp

/-- The fragment fold of one column, for an evaluation that never fails. -/
theorem columnStep_total (g : Line → ℚ × ℚ) (frags : List Line) :
    ∀ s : ℚ × ℚ,
      frags.foldlM (fun pv_acc l => do
          let e ← (fun l => some (g l)) l
          pure (pv_acc.1 + e.1, pv_acc.2 + e.2)) s
        = some (s.1 + pvTot g frags, s.2 + accTot g frags) := by
  induction frags with
  | nil => intro s; simp [pvTot, accTot]
  | cons hd tl ih =>
    intro s
    have hunf : (hd :: tl).foldlM (fun pv_acc l => do
          let e ← (fun l => some (g l)) l
          pure (pv_acc.1 + e.1, pv_acc.2 + e.2)) s
        = tl.foldlM (fun pv_acc l => do
          let e ← (fun l => some (g l)) l
          pure (pv_acc.1 + e.1, pv_acc.2 + e.2)) (s.1 + (g hd).1, s.2 + (g hd).2) := rfl
    rw [hunf, ih (s.1 + (g hd).1, s.2 + (g hd).2)]
    simp only [pvTot, accTot, List.map_cons, List.sum_cons, Option.some.injEq, Prod.mk.injEq]
    exact ⟨by ring, by ring⟩

/-- `columnStep` under a total evaluation: the written value is the
incoming accumulator plus the column's pixel values; the outgoing
accumulator adds the column's accumulator contributions. -/
theorem columnStep_some (g : Line → ℚ × ℚ) (frags : List Line) (a : ℚ) :
    columnStep (fun l => some (g l)) frags a = some (a + pvTot g frags, a + accTot g frags) :=
  columnStep_total g frags (a, a)

/-- The right-to-left sweep, fully characterized: the value written at
column `c` is the initial accumulator plus the column's own pixel values
plus the accumulator contributions of all columns strictly to its right. -/
theorem sweep_range_rev (g : Line → ℚ × ℚ) (cellAt : ℕ → List Line) :
    ∀ (w : ℕ) (a : ℚ),
      sweepCols (fun l => some (g l)) cellAt (List.range w).reverse a =
        some ((List.range w).reverse.map fun c =>
          (c, a + pvTot g (cellAt c) +
            (((List.range w).filter fun j => decide (c < j)).map
              fun j => accTot g (cellAt j)).sum)) := by
  intro w
  induction w with
  | zero => intro a; simp [sweepCols]
  | succ n ih =>
    intro a
    rw [List.range_succ, List.reverse_append, List.reverse_singleton, List.singleton_append]
    rw [sweepCols, columnStep_some]
    simp only [Option.bind_eq_bind, Option.some_bind]
    rw [ih (a + accTot g (cellAt n))]
    simp only [Option.pure_def, Option.some_bind, List.map_cons, Option.some.injEq,
      List.cons.injEq]
    constructor
    · have hfil : (List.range n ++ [n]).filter (fun j => decide (n < j)) = [] := by
        apply List.filter_eq_nil_iff.mpr
        intro j hj
        rcases List.mem_append.mp hj with hj | hj
        · simp only [List.mem_range] at hj
          simp
          omega
        · simp only [List.mem_singleton] at hj
          subst hj
          simp
      rw [hfil]
      simp
    · apply List.map_congr_left
      intro c hc
      have hcn : c < n := by
        have := List.mem_reverse.mp hc
        simpa [List.mem_range] using this
      have hfil : (List.range n ++ [n]).filter (fun j => decide (c < j)) =
          ((List.range n).filter fun j => decide (c < j)) ++ [n] := by
        rw [List.filter_append]
        simp [hcn]
      rw [hfil]
      simp only [List.map_append, List.sum_append, List.map_cons, List.map_nil,
        List.sum_cons, List.sum_nil, Prod.mk.injEq]
      exact ⟨trivial, by ring⟩

/-- A fold of `max` only grows its initial value. -/
theorem foldl_max_init_le : ∀ (xs : List ℚ) (x0 : ℚ), x0 ≤ xs.foldl max x0 := by
  intro xs
  induction xs with
  | nil => intro x0; simp
  | cons c rest ih =>
    intro x0
    exact le_trans (le_max_left x0 c) (ih (max x0 c))

/-- A fold of `max` dominates every list element. -/
theorem foldl_max_le_of_mem :
    ∀ (xs : List ℚ) (x0 a : ℚ), a ∈ xs → a ≤ xs.foldl max x0 := by
  intro xs
  induction xs with
  | nil => intro x0 a ha; cases ha
  | cons c rest ih =>
    intro x0 a ha
    rcases List.mem_cons.mp ha with rfl | ha
    · exact le_trans (le_max_right x0 a) (foldl_max_init_le rest (max x0 a))
    · exact ih (max x0 c) a ha

/-- A fold of `min` only shrinks its initial value. -/
theorem foldl_min_init_le : ∀ (xs : List ℚ) (x0 : ℚ), xs.foldl min x0 ≤ x0 := by
  intro xs
  induction xs with
  | nil => intro x0; simp
  | cons c rest ih =>
    intro x0
    exact le_trans (ih (min x0 c)) (min_le_left x0 c)

/-- A fold of `min` is below every list element. -/
theorem foldl_min_le_of_mem :
    ∀ (xs : List ℚ) (x0 a : ℚ), a ∈ xs → xs.foldl min x0 ≤ a := by
  intro xs
  induction xs with
  | nil => intro x0 a ha; cases ha
  | cons c rest ih =>
    intro x0 a ha
    rcases List.mem_cons.mp ha with rfl | ha
    · exact le_trans (foldl_min_init_le rest (min x0 a)) (min_le_right x0 a)
    · exact ih (min x0 c) a ha

/-- If no constraint triggers the early return, then any parameter `t`
above all entry candidates and below all exit candidates satisfies every
constraint: `0 ≤ q - p * t`. -/
theorem pushes_feasible : ∀ pqs : List (ℚ × ℚ), earlyReject pqs = false →
    ∀ t : ℚ, (∀ u ∈ ltPushes pqs, u ≤ t) → (∀ u ∈ gtPushes pqs, t ≤ u) →
      ∀ pq ∈ pqs, 0 ≤ pq.2 - pq.1 * t := by
  intro pqs
  induction pqs with
  | nil => intro _ t _ _ pq hpq; cases hpq
  | cons hd tl ih =>
    obtain ⟨p, q⟩ := hd
    intro hER t hlt hgt pq hpq
    simp only [earlyReject, ltPushes, gtPushes] at hER hlt hgt
    split_ifs at hER hlt hgt with hc1 hc2 hc3
    · rcases List.mem_cons.mp hpq with rfl | hpq
      · have hqp : q / p ≤ t := hlt _ (List.mem_cons_self _ _)
        have := (div_le_iff_of_neg hc1).mp hqp
        simp only
        linarith
      · exact ih hER t (fun u hu => hlt u (List.mem_cons_of_mem _ hu)) hgt pq hpq
    · rcases List.mem_cons.mp hpq with rfl | hpq
      · have hqp : t ≤ q / p := hgt _ (List.mem_cons_self _ _)
        have := (le_div_iff₀ hc2).mp hqp
        simp only
        linarith
      · exact ih hER t hlt (fun u hu => hgt u (List.mem_cons_of_mem _ hu)) pq hpq
    · have hp0 : p = 0 := le_antisymm (not_lt.mp hc2) (not_lt.mp hc1)
      have hq0 : 0 ≤ q := by
        by_contra hq
        exact hc3 ⟨hp0, lt_of_not_le hq⟩
      rcases List.mem_cons.mp hpq with rfl | hpq
      · simp only
        rw [hp0]
        linarith
      · exact ih hER t hlt hgt pq hpq

/-- The normalized x-origin, case-free. -/
theorem normalize_ox (r : Rect) :
    r.normalize.origin.x
      = if r.size.width < 0 then r.origin.x + r.size.width else r.origin.x := by
  simp only [Rect.normalize]
  split_ifs <;> rfl

/-- The normalized width, case-free. -/
theorem normalize_w (r : Rect) :
    r.normalize.size.width = if r.size.width < 0 then -r.size.width else r.size.width := by
  simp only [Rect.normalize]
  split_ifs <;> rfl

/-- The normalized y-origin, case-free. -/
theorem normalize_oy (r : Rect) :
    r.normalize.origin.y
      = if r.size.height < 0 then r.origin.y + r.size.height else r.origin.y := by
  simp only [Rect.normalize]
  split_ifs <;> rfl

/-- The normalized height, case-free. -/
theorem normalize_h (r : Rect) :
    r.normalize.size.height
      = if r.size.height < 0 then -r.size.height else r.size.height := by
  simp only [Rect.normalize]
  split_ifs <;> rfl

/-- `is_inside` in terms of the normalized bounds. -/
theorem is_inside_iff (r : Rect) (p : Point) :
    r.is_inside p = true ↔
      (r.normalize.origin.x ≤ p.x ∧ p.x ≤ r.normalize.origin.x + r.normalize.size.width ∧
       r.normalize.origin.y ≤ p.y ∧ p.y ≤ r.normalize.origin.y + r.normalize.size.height) := by
  unfold Rect.is_inside Rect.top_left Rect.top_right Rect.bottom_left Point.offsetBy
  simp only [Rect.normalize_idem, decide_eq_true_eq, Point.add_vec_x, Point.add_vec_y]

/-- A rect with non-negative size is already normalized. -/
theorem Rect.normalize_eq_self (r : Rect) (hw : 0 ≤ r.size.width)
    (hh : 0 ≤ r.size.height) : r.normalize = r := by
  simp [Rect.normalize, not_lt.mpr hw, not_lt.mpr hh]

/-- The normalized x-extent is the min/max of the raw x-extent. -/
theorem normalize_x_bounds (r : Rect) :
    r.normalize.origin.x = min r.origin.x (r.origin.x + r.size.width) ∧
      r.normalize.origin.x + r.normalize.size.width
        = max r.origin.x (r.origin.x + r.size.width) := by
  rw [normalize_ox, normalize_w]
  by_cases hw : r.size.width < 0
  · rw [if_pos hw, if_pos hw]
    constructor
    · rw [min_eq_right (by linarith)]
    · rw [max_eq_left (by linarith)]
      ring
  · rw [if_neg hw, if_neg hw]
    constructor
    · rw [min_eq_left (by linarith [not_lt.mp hw])]
    · rw [max_eq_right (by linarith [not_lt.mp hw])]

/-- The normalized y-extent is the min/max of the raw y-extent. -/
theorem normalize_y_bounds (r : Rect) :
    r.normalize.origin.y = min r.origin.y (r.origin.y + r.size.height) ∧
      r.normalize.origin.y + r.normalize.size.height
        = max r.origin.y (r.origin.y + r.size.height) := by
  rw [normalize_oy, normalize_h]
  by_cases hh : r.size.height < 0
  · rw [if_pos hh, if_pos hh]
    constructor
    · rw [min_eq_right (by linarith)]
    · rw [max_eq_left (by linarith)]
      ring
  · rw [if_neg hh, if_neg hh]
    constructor
    · rw [min_eq_left (by linarith [not_lt.mp hh])]
    · rw [max_eq_right (by linarith [not_lt.mp hh])]

/-- Linear interpolation with `t ∈ [0,1]` stays between the endpoints. -/
theorem interp_bounds (s d t : ℚ) (h0 : 0 ≤ t) (h1 : t ≤ 1) :
    min s (s + d) ≤ s + d * t ∧ s + d * t ≤ max s (s + d) := by
  rcases le_total 0 d with hd | hd
  · rw [min_eq_left (by linarith), max_eq_right (by linarith)]
    constructor <;> nlinarith
  · rw [min_eq_right (by linarith), max_eq_left (by linarith)]
    constructor <;> nlinarith

/-- Every point of the parametrized segment with `t ∈ [0,1]` lies in the
line's bounding box. -/
theorem linePoint_mem_bbox (l : Line) (t : ℚ) (h0 : 0 ≤ t) (h1 : t ≤ 1) :
    l.bounding_box.is_inside (linePoint l t) = true := by
  rw [is_inside_iff]
  rw [(normalize_x_bounds l.bounding_box).2, (normalize_x_bounds l.bounding_box).1,
      (normalize_y_bounds l.bounding_box).2, (normalize_y_bounds l.bounding_box).1]
  have hix := interp_bounds l.start.x (l.stop.x - l.start.x) t h0 h1
  have hiy := interp_bounds l.start.y (l.stop.y - l.start.y) t h0 h1
  simp only [Line.bounding_box, linePoint, Point.add_vec_x, Point.add_vec_y,
    Vec2d.smul_x, Vec2d.smul_y, Point.sub_x, Point.sub_y]
  exact ⟨hix.1, hix.2, hiy.1, hiy.2⟩

/-- A parameter satisfying all four half-plane constraints yields a point
inside the (normalized) rect. -/
theorem feasible_point_in_rect (l : Line) (r : Rect)
    (hw : 0 ≤ r.size.width) (hh : 0 ≤ r.size.height) (t : ℚ)
    (hcons : ∀ pq ∈ pqList l r, 0 ≤ pq.2 - pq.1 * t) :
    r.is_inside (linePoint l t) = true := by
  rw [is_inside_iff, Rect.normalize_eq_self r hw hh]
  have h1 := hcons (-(l.stop.x - l.start.x), l.start.x - r.origin.x) (by simp [pqList])
  have h2 := hcons ((l.stop.x - l.start.x), r.origin.x + r.size.width - l.start.x)
    (by simp [pqList])
  have h3 := hcons (-(l.stop.y - l.start.y), l.start.y - r.origin.y) (by simp [pqList])
  have h4 := hcons ((l.stop.y - l.start.y), r.origin.y + r.size.height - l.start.y)
    (by simp [pqList])
  simp only at h1 h2 h3 h4
  simp only [linePoint, Point.add_vec_x, Point.add_vec_y, Vec2d.smul_x, Vec2d.smul_y,
    Point.sub_x, Point.sub_y]
  refine ⟨by linarith, by linarith, by linarith, by linarith⟩

/-- Everything `clip_to_rect` guarantees about a returned segment. -/
theorem clip_some_props (l : Line) (r : Rect)
    (hw : 0 ≤ r.size.width) (hh : 0 ≤ r.size.height)
    (l' : Line) (h : l.clip_to_rect r = some l') :
    entryParam (ltPushes (pqList l r)) ≤ exitParam (gtPushes (pqList l r)) ∧
      l'.start = linePoint l (entryParam (ltPushes (pqList l r))) ∧
      l'.stop = linePoint l (exitParam (gtPushes (pqList l r))) ∧
      r.is_inside l'.start = true ∧ r.is_inside l'.stop = true ∧
      l.bounding_box.is_inside l'.start = true ∧
      l.bounding_box.is_inside l'.stop = true := by
  simp only [Line.clip_to_rect] at h
  split_ifs at h with h1 h2 h3
  all_goals try cases h
  have hER : earlyReject (pqList l r) = false := by simpa using h1
  have ht12 : entryParam (ltPushes (pqList l r)) ≤ exitParam (gtPushes (pqList l r)) :=
    not_lt.mp h2
  have h0t1 : (0 : ℚ) ≤ entryParam (ltPushes (pqList l r)) := foldl_max_init_le _ _
  have ht2le : exitParam (gtPushes (pqList l r)) ≤ 1 := foldl_min_init_le _ _
  have hfeas1 : ∀ pq ∈ pqList l r,
      0 ≤ pq.2 - pq.1 * entryParam (ltPushes (pqList l r)) := by
    apply pushes_feasible _ hER
    · exact fun u hu => foldl_max_le_of_mem _ _ u hu
    · exact fun u hu => le_trans ht12 (foldl_min_le_of_mem _ _ u hu)
  have hfeas2 : ∀ pq ∈ pqList l r,
      0 ≤ pq.2 - pq.1 * exitParam (gtPushes (pqList l r)) := by
    apply pushes_feasible _ hER
    · exact fun u hu => le_trans (foldl_max_le_of_mem _ _ u hu) ht12
    · exact fun u hu => foldl_min_le_of_mem _ _ u hu
  exact ⟨ht12, rfl, rfl,
    feasible_point_in_rect l r hw hh _ hfeas1,
    feasible_point_in_rect l r hw hh _ hfeas2,
    linePoint_mem_bbox l _ h0t1 (le_trans ht12 ht2le),
    linePoint_mem_bbox l _ (le_trans h0t1 ht12) ht2le⟩

/-! Claim theorems -/

/-- C8 (confirmed).  In `clip_to_rect`, the quotient `q/p` is computed
only on branches where `p < 0` or `p > 0` has already been established;
the `p == 0` case is resolved purely by branching on the sign of `q`.
Consequently no division executed during clipping has a zero denominator,
for any input line and rect. -/
theorem C8_no_zero_divisor (l : Line) (r : Rect) : (0 : ℚ) ∉ clipDivisors l r :=
  divisorsPQ_ne_zero _

/-- C9 (confirmed).  Among the four `(p, q)` constraints, at most two
yield `p < 0` and at most two yield `p > 0` (the x-pair uses `∓delta_x`
and the y-pair `∓delta_y`), so each capacity-3 ArrayVec receives at most
2 constraint pushes, and with the one sentinel push stays within its
capacity: `clip_to_rect` never panics on the push path. -/
theorem C9_push_capacity (l : Line) (r : Rect) :
    (ltPushes (pqList l r)).length ≤ 2 ∧ (gtPushes (pqList l r)).length ≤ 2 ∧
      (ltPushes (pqList l r)).length + 1 ≤ 3 ∧ (gtPushes (pqList l r)).length + 1 ≤ 3 := by
  have hlt := (ltPushes_len_le (pqList l r)).trans (filter_neg_pq_len l r)
  have hgt := (gtPushes_len_le (pqList l r)).trans (filter_pos_pq_len l r)
  exact ⟨hlt, hgt, by omega, by omega⟩

/-- C10 (confirmed).  `rasterize_parallel` normalizes the viewport as
its first step, so the buffer produced for any rect `r` (including rects
with negative width or height) is identical to the buffer produced for
`r.normalize()`. -/
theorem C10_normalize_first (viewport : Rect) (flt : FilterImpl) (curves : List Line) :
    rasterize_parallel viewport flt curves = rasterize_parallel viewport.normalize flt curves := by
  unfold rasterize_parallel
  rw [Rect.normalize_idem]

/-- C2 (code bug).  Rasterizing the full unit-square boundary traversed
in the orientation that gives the lower-left triangle `+0.5` (viewport
`(0,0,1,1)`, `BoxFilter::new(1,1)`) produces `buffer[0] = 0.0`, not the
`≈ 1.0` the specification demands: the square's right edge lies on the
clip cell's far edge, is discarded by the degenerate-boundary guard, and
no cell to its right exists to carry its accumulator contribution. -/
theorem C2_square_buffer_eval :
    rasterize_parallel ⟨⟨0, 0⟩, ⟨1, 1⟩⟩ ((BoxFilter.new 1 1).impl)
        [⟨⟨0, 0⟩, ⟨1, 0⟩⟩, ⟨⟨1, 0⟩, ⟨1, 1⟩⟩, ⟨⟨1, 1⟩, ⟨0, 1⟩⟩, ⟨⟨0, 1⟩, ⟨0, 0⟩⟩]
      = some [0] ∧ (0 : ℚ) ≠ 1 := by
  constructor
  · with_unfolding_all decide
  · with_unfolding_all decide

/-- C3 (counterexample).  The claim says the guard rejects a clipped
result lying on the rect's *own* far edge.  For the rect `(0,0,2,2)` the
segment from `(2,0)` to `(2,1)` lies with both endpoints exactly on the
far edge `x = origin.x + width = 2`, yet `clip_to_rect` returns it. -/
theorem C3_counterexample :
    (Line.mk ⟨2, 0⟩ ⟨2, 1⟩).clip_to_rect ⟨⟨0, 0⟩, ⟨2, 2⟩⟩ = some ⟨⟨2, 0⟩, ⟨2, 1⟩⟩ ∧
      (⟨⟨0, 0⟩, ⟨2, 2⟩⟩ : Rect).origin.x + (⟨⟨0, 0⟩, ⟨2, 2⟩⟩ : Rect).size.width = 2 := by
  constructor
  · with_unfolding_all decide
  · with_unfolding_all decide

/-- C3 (amended).  The guard of `clip_to_rect` rejects exactly the
results whose endpoints both lie on the hard-coded coordinate `1.0`
(the far edge of the canonical unit pixel cell), regardless of the rect's
actual far edge: a returned segment never has both endpoint x-coordinates
equal to `1` nor both endpoint y-coordinates equal to `1`. -/
theorem C3_far_edge_guard (l : Line) (r : Rect) (l' : Line)
    (h : l.clip_to_rect r = some l') :
    ¬((l'.start.x = 1 ∧ l'.stop.x = 1) ∨ (l'.start.y = 1 ∧ l'.stop.y = 1)) := by
  simp only [Line.clip_to_rect] at h
  split_ifs at h with h1 h2 h3
  all_goals try cases h
  exact h3

/-- Witness for C3: a concrete clip that returns a segment, whose
endpoints indeed avoid the `x = 1` / `y = 1` seam. -/
theorem C3_witness :
    ¬((((⟨⟨1/2, 1/4⟩, ⟨1/2, 3/4⟩⟩ : Line)).start.x = 1 ∧
        ((⟨⟨1/2, 1/4⟩, ⟨1/2, 3/4⟩⟩ : Line)).stop.x = 1) ∨
      (((⟨⟨1/2, 1/4⟩, ⟨1/2, 3/4⟩⟩ : Line)).start.y = 1 ∧
        ((⟨⟨1/2, 1/4⟩, ⟨1/2, 3/4⟩⟩ : Line)).stop.y = 1)) :=
  C3_far_edge_guard ⟨⟨1/2, 1/4⟩, ⟨1/2, 3/4⟩⟩ ⟨⟨0, 0⟩, ⟨1, 1⟩⟩ ⟨⟨1/2, 1/4⟩, ⟨1/2, 3/4⟩⟩
    (by with_unfolding_all decide)

/-- C6 (confirmed).  A `DynamicFilter` without line tile data fails on
every `Line` evaluation (the `expect` panic, modelled as `none`) — never a
successful value — and the failure aborts the entire rasterization: the
pipeline run on a curve that reaches an evaluation returns no buffer at
all. -/
theorem C6_unsupported_curve_aborts :
    (∀ (nm : String) (sup : (ℚ × ℚ) × (ℚ × ℚ)) (nrm : ℚ) (line : Line) (piece : ℕ × ℕ),
        DynamicFilter.eval ⟨nm, sup, nrm, none⟩ line piece = none) ∧
      rasterize_parallel ⟨⟨0, 0⟩, ⟨1, 1⟩⟩
          (DynamicFilter.impl ⟨"", ((-1/2, 1/2), (-1/2, 1/2)), 1, none⟩)
          [⟨⟨1/4, 1/4⟩, ⟨3/4, 3/4⟩⟩]
        = none := by
  constructor
  · intro nm sup nrm line piece
    rfl
  · with_unfolding_all decide

/-- C7 (counterexample).  `PowersLookupTable::new` with
`max_pow = 0` — inside the claimed range `[0,8]` — underflows the `u8`
loop bound `0..up_to_power - 1` and does not succeed. -/
theorem C7_counterexample :
    PowersLookupTable.new ⟨2, 3, 5, 7⟩ 0 = none := rfl

/-- C7 (amended).  For every channel tuple and every `max_pow` in `[1,8]`
(`max_pow = 0` underflows the `u8` loop bound and fails),
`PowersLookupTable::new` succeeds and produces a table whose entry `0` is
the identity `(1,1,1,1)` and whose entry `i` is the elementwise `i`-th
power of the channel values, for every `i ≤ max_pow`. -/
theorem C7_powers_table (v : PLine) (m : ℕ) (h1 : 1 ≤ m) (h8 : m ≤ 8) :
    ∃ tbl, PowersLookupTable.new v m = some tbl ∧
      tbl.get? 0 = some PLine.identity ∧
      ∀ i : ℕ, i ≤ m → tbl.get? i = some (v.elemPow i) := by
  obtain ⟨hnew, hget⟩ := powersTable_spec v m h1
  exact ⟨_, hnew, hget 0 (by omega), fun i hi => hget i hi⟩

/-- Witness for C7: the table of `(2,3,5,7)` with `max_pow = 2`. -/
theorem C7_witness :
    ∃ tbl, PowersLookupTable.new ⟨2, 3, 5, 7⟩ 2 = some tbl ∧
      tbl.get? 0 = some PLine.identity ∧
      ∀ i : ℕ, i ≤ 2 → tbl.get? i = some (PLine.elemPow ⟨2, 3, 5, 7⟩ i) :=
  C7_powers_table ⟨2, 3, 5, 7⟩ 2 (by decide) (by decide)

/-- C5 (counterexample).  A degenerate line (`start == end`) evaluated by
a `DynamicFilter` with line tile data does not return `(0, 0)` for
arbitrary tile polynomials: a tile holding the constant monomial `1`
(all exponents zero, `max_pow = 1`) yields `(1, 1)`. -/
theorem C5_counterexample :
    (⟨⟨2, 3⟩, ⟨2, 3⟩⟩ : Line).start = (⟨⟨2, 3⟩, ⟨2, 3⟩⟩ : Line).stop ∧
      DynamicFilter.eval ⟨"", ((-1/2, 1/2), (-1/2, 1/2)), 1, some [[⟨[1], [(0, 0, 0, 0)], 1⟩]]⟩
          ⟨⟨2, 3⟩, ⟨2, 3⟩⟩ (0, 0) ≠ some (0, 0) := by
  constructor
  · rfl
  · with_unfolding_all decide

/-- C5 (amended).  For every `Line` with `start == end`:
`BoxFilter::eval` returns `(0, 0)` for every filter whose kernel area is
nonzero (at zero area the f32 source divides `0.0/0.0` to `NaN`); and
`DynamicFilter::eval` returns `(0, 0)` provided the filter has line tile
data and the selected tile is well-formed — `max_pow ≥ 1`, equal-length
coefficient and power lists (the positional pairing the load format
prescribes), all exponents within `max_pow` — with every monomial
carrying a positive vector-channel exponent: the degenerate line maps to
vector channels `(0, 0)`, which zero out such monomials.  For arbitrary
tile polynomials the result is the batched tile sum at vector `(0, 0)`,
which need not be zero. -/
theorem C5_degenerate_eval :
    (∀ (x y : ℚ) (line : Line) (piece : ℕ × ℕ), x * y ≠ 0 → line.start = line.stop →
        (BoxFilter.new x y).eval line piece = (0, 0)) ∧
      ∀ (flt : DynamicFilter) (ts : TileSet) (row : List Tile) (tile : Tile)
        (line : Line) (piece : ℕ × ℕ),
        line.start = line.stop →
        flt.line_tiles = some ts →
        List.get? ts piece.2 = some row →
        List.get? row piece.1 = some tile →
        1 ≤ tile.max_pow →
        tile.coefficients.length = tile.powers.length →
        (∀ e ∈ tile.powers,
          (e.1 ≤ tile.max_pow ∧ e.2.1 ≤ tile.max_pow ∧ e.2.2.1 ≤ tile.max_pow ∧
            e.2.2.2 ≤ tile.max_pow) ∧ (1 ≤ e.2.2.1 ∨ 1 ≤ e.2.2.2)) →
        flt.eval line piece = some (0, 0) := by
  constructor
  · intro x y line piece _harea hdeg
    simp [BoxFilter.eval, BoxFilter.new, hdeg]
  · intro flt ts row tile line piece hdeg hts hrow htile hm hlen hp
    have h1 : ts.evaluate_tile piece
        ⟨line.start.x, line.start.y, line.stop.x - line.start.x, line.stop.y - line.start.y⟩
        = some 0 :=
      evaluate_tile_zero ts piece _ row tile hrow htile hm (by simp [hdeg]) (by simp [hdeg])
        hlen hp
    have h2 : ts.evaluate_tile piece
        ⟨1, line.start.y, 0, line.stop.y - line.start.y⟩ = some 0 :=
      evaluate_tile_zero ts piece _ row tile hrow htile hm rfl (by simp [hdeg]) hlen hp
    simp only [DynamicFilter.eval, hts, h1, h2, Option.bind_eq_bind, Option.some_bind]
    simp

/-- Witness for C5: a degenerate line through a box filter and through a
well-formed dynamic filter whose single monomial has vector exponents. -/
theorem C5_witness :
    (BoxFilter.new 2 3).eval ⟨⟨5, 7⟩, ⟨5, 7⟩⟩ (0, 0) = (0, 0) ∧
      DynamicFilter.eval ⟨"", ((-1/2, 1/2), (-1/2, 1/2)), 3, some [[⟨[2], [(0, 0, 1, 1)], 1⟩]]⟩
          ⟨⟨5, 7⟩, ⟨5, 7⟩⟩ (0, 0) = some (0, 0) :=
  ⟨C5_degenerate_eval.1 2 3 ⟨⟨5, 7⟩, ⟨5, 7⟩⟩ (0, 0) (by norm_num) rfl,
    C5_degenerate_eval.2 ⟨"", ((-1/2, 1/2), (-1/2, 1/2)), 3, some [[⟨[2], [(0, 0, 1, 1)], 1⟩]]⟩
      [[⟨[2], [(0, 0, 1, 1)], 1⟩]] [⟨[2], [(0, 0, 1, 1)], 1⟩] ⟨[2], [(0, 0, 1, 1)], 1⟩
      ⟨⟨5, 7⟩, ⟨5, 7⟩⟩ (0, 0) rfl rfl rfl rfl (by decide) rfl (by decide)⟩

/-- C1 (counterexample).  The sweep writes the accumulator taken BEFORE
the column's own updates: with one fragment of `pixel_value = 0` and
`accumulator = 1` at the rightmost (only) column, the code writes `0`
while the claim — pixel values plus the accumulator AFTER this column's
updates — demands `0 + 1 = 1`. -/
theorem C1_counterexample :
    sweepCols (fun l => some ((BoxFilter.new 1 1).eval l (0, 0)))
        (fun _ => [⟨⟨0, 0⟩, ⟨0, 1⟩⟩]) (List.range 1).reverse 0 = some [(0, 0)] ∧
      pvTot (fun l => (BoxFilter.new 1 1).eval l (0, 0)) [⟨⟨0, 0⟩, ⟨0, 1⟩⟩]
          + accTot (fun l => (BoxFilter.new 1 1).eval l (0, 0)) [⟨⟨0, 0⟩, ⟨0, 1⟩⟩] = 1 ∧
      (0 : ℚ) ≠ 1 := by
  refine ⟨by with_unfolding_all decide, by with_unfolding_all decide, by norm_num⟩

/-- C1 (amended).  In the accumulate stage, the pipeline sweeps columns
right to left with a running accumulator initialized to 0 at the
rightmost column, and the amount added to the output buffer at a column
equals the sum of the pixel values of that column's fragments plus the
running accumulator taken BEFORE that column's updates — i.e. the
accumulator contributions of the columns strictly to its right only. -/
theorem C1_sweep_written (g : Line → ℚ × ℚ) (cellAt : ℕ → List Line) (w : ℕ) :
    sweepCols (fun l => some (g l)) cellAt (List.range w).reverse 0 =
      some ((List.range w).reverse.map fun c =>
        (c, pvTot g (cellAt c) +
          (((List.range w).filter fun j => decide (c < j)).map
            fun j => accTot g (cellAt j)).sum)) := by
  simpa only [zero_add] using sweep_range_rev g cellAt w 0

/-- C4 (counterexample).  The claim says that whenever the line's
bounding box intersects the rect, `clip_to_rect` returns a (single)
segment.  The diagonal from `(2,0)` to `(0,2)` has a bounding box that
contains the rect `(0,0,1/2,1/2)` (both contain `(1/4,1/4)`), yet the
clip is empty: the segment itself misses the rect. -/
theorem C4_counterexample :
    (Line.mk ⟨2, 0⟩ ⟨0, 2⟩).bounding_box.is_inside ⟨1/4, 1/4⟩ = true ∧
      (Rect.mk ⟨0, 0⟩ ⟨1/2, 1/2⟩).is_inside ⟨1/4, 1/4⟩ = true ∧
      (Line.mk ⟨2, 0⟩ ⟨0, 2⟩).clip_to_rect (Rect.mk ⟨0, 0⟩ ⟨1/2, 1/2⟩) = none := by
  refine ⟨?_, ?_, ?_⟩ <;> with_unfolding_all decide

/-- C4 (amended).  For every line and every normalized rect:
if the line's bounding box does not intersect the rect (no common point),
`clip_to_rect` returns no segment; and whenever it returns a segment,
that segment was computed with `t1 = max(entry candidates, 0)` and
`t2 = min(exit candidates, 1)`, satisfies `t1 ≤ t2`, and has both
endpoints within the (closed) rect.  A bounding-box intersection does
not guarantee a segment, and a line entirely outside the rect but
colinear with one of its edges falls under the disjointness clause. -/
theorem C4_clip_guarantees (l : Line) (r : Rect)
    (hw : 0 ≤ r.size.width) (hh : 0 ≤ r.size.height) :
    ((∀ p : Point, ¬(l.bounding_box.is_inside p = true ∧ r.is_inside p = true)) →
        l.clip_to_rect r = none) ∧
      ∀ l', l.clip_to_rect r = some l' →
        entryParam (ltPushes (pqList l r)) ≤ exitParam (gtPushes (pqList l r)) ∧
          l'.start = linePoint l (entryParam (ltPushes (pqList l r))) ∧
          l'.stop = linePoint l (exitParam (gtPushes (pqList l r))) ∧
          r.is_inside l'.start = true ∧ r.is_inside l'.stop = true := by
  constructor
  · intro hdisj
    rcases hopt : l.clip_to_rect r with _ | l'
    · rfl
    · exfalso
      obtain ⟨_, _, _, hrs, _, hbs, _⟩ := clip_some_props l r hw hh l' hopt
      exact hdisj l'.start ⟨hbs, hrs⟩
  · intro l' h
    obtain ⟨a, b, c, d, e, _, _⟩ := clip_some_props l r hw hh l' h
    exact ⟨a, b, c, d, e⟩

/-- Witness for C4: the segment from `(1/4,1/4)` to `(3/4,3/4)` clipped
against the unit rect is returned unchanged, with `t1 ≤ t2` and both
endpoints inside the rect. -/
theorem C4_witness :
    entryParam (ltPushes (pqList ⟨⟨1/4, 1/4⟩, ⟨3/4, 3/4⟩⟩ ⟨⟨0, 0⟩, ⟨1, 1⟩⟩))
        ≤ exitParam (gtPushes (pqList ⟨⟨1/4, 1/4⟩, ⟨3/4, 3/4⟩⟩ ⟨⟨0, 0⟩, ⟨1, 1⟩⟩)) ∧
      (⟨⟨1/4, 1/4⟩, ⟨3/4, 3/4⟩⟩ : Line).start
          = linePoint ⟨⟨1/4, 1/4⟩, ⟨3/4, 3/4⟩⟩
              (entryParam (ltPushes (pqList ⟨⟨1/4, 1/4⟩, ⟨3/4, 3/4⟩⟩ ⟨⟨0, 0⟩, ⟨1, 1⟩⟩))) ∧
      (⟨⟨1/4, 1/4⟩, ⟨3/4, 3/4⟩⟩ : Line).stop
          = linePoint ⟨⟨1/4, 1/4⟩, ⟨3/4, 3/4⟩⟩
              (exitParam (gtPushes (pqList ⟨⟨1/4, 1/4⟩, ⟨3/4, 3/4⟩⟩ ⟨⟨0, 0⟩, ⟨1, 1⟩⟩))) ∧
      (⟨⟨0, 0⟩, ⟨1, 1⟩⟩ : Rect).is_inside (⟨⟨1/4, 1/4⟩, ⟨3/4, 3/4⟩⟩ : Line).start = true ∧
      (⟨⟨0, 0⟩, ⟨1, 1⟩⟩ : Rect).is_inside (⟨⟨1/4, 1/4⟩, ⟨3/4, 3/4⟩⟩ : Line).stop = true :=
  (C4_clip_guarantees ⟨⟨1/4, 1/4⟩, ⟨3/4, 3/4⟩⟩ ⟨⟨0, 0⟩, ⟨1, 1⟩⟩ (by norm_num) (by norm_num)).2
    ⟨⟨1/4, 1/4⟩, ⟨3/4, 3/4⟩⟩ (by with_unfolding_all decide)

end Rasterize
